import Mathlib

/-!
# Verification of `topological_sort.py`

A shallow embedding of the directed-graph module (`DirectedGraph`,
`is_topological_sort`, `kahns_algo` / `topological_sort`, `random_dag`)
together with proofs of the specified properties.

Modelling conventions:
* Python dicts become association lists (`List (α × β)`) with insertion order
  preserved; `dictFind` is dict lookup, `dictInsertIfAbsent` models
  `if k not in d: d[k] = v`, and `dictModify` models in-place mutation of an
  existing entry.
* The Python `set` used for the node set becomes an insertion-ordered
  duplicate-free list (`setAdd` models `set.add`).
* `raise` becomes the `Except` error channel.  `add_edge` raises while the
  object keeps its (possibly partially updated) state, so its error value
  carries the graph state at the time of the raise.  A dictionary lookup of a
  missing key (`KeyError`) is modelled as the error string "KeyError".
* Randomness in `random_dag` is modelled by an arbitrary boolean oracle
  `coin u v` standing for the draw `random() > edge_threshold` made for the
  pair `(u, v)`; quantifying over `coin` quantifies over all outcomes of the
  draws for all thresholds.
* The Python `while` loop of `kahns_algo` is given fuel; we prove that fuel
  `len(nodes)` always reaches the loop's exit condition (worklist empty), so
  the fuelled function computes exactly what the unbounded loop computes.
-/

section Dict

variable {α : Type} {β : Type} [DecidableEq α]

/-- Dictionary lookup on an association list (Python `d[k]` / `d.get(k)`). -/
def dictFind (k : α) : List (α × β) → Option β
  | [] => none
  | (k', v) :: rest => if k = k' then some v else dictFind k rest

/-- Python `if k not in d: d[k] = v` (new keys go to the end, as in a dict). -/
def dictInsertIfAbsent (k : α) (v : β) (d : List (α × β)) : List (α × β) :=
  match dictFind k d with
  | some _ => d
  | none => d ++ [(k, v)]

/-- In-place update of the value stored at an existing key. -/
def dictModify (k : α) (f : β → β) : List (α × β) → List (α × β)
  | [] => []
  | (k', v) :: rest => if k = k' then (k', f v) :: rest else (k', v) :: dictModify k f rest

theorem dictFind_nil (k : α) : dictFind k ([] : List (α × β)) = none := rfl

theorem dictFind_append (k : α) (d₁ d₂ : List (α × β)) :
    dictFind k (d₁ ++ d₂) = ((dictFind k d₁).or (dictFind k d₂)) := by
  induction d₁ with
  | nil => simp [dictFind]
  | cons p rest ih =>
    obtain ⟨k', v⟩ := p
    by_cases h : k = k' <;> simp [dictFind, h, ih]

theorem dictFind_insertIfAbsent_self (k : α) (v : β) (d : List (α × β)) :
    dictFind k (dictInsertIfAbsent k v d) = some ((dictFind k d).getD v) := by
  unfold dictInsertIfAbsent
  cases h : dictFind k d with
  | some w => simp [h]
  | none => simp [dictFind_append, h, dictFind]

theorem dictFind_insertIfAbsent_ne (k k' : α) (v : β) (d : List (α × β)) (h : k' ≠ k) :
    dictFind k' (dictInsertIfAbsent k v d) = dictFind k' d := by
  unfold dictInsertIfAbsent
  cases hf : dictFind k d with
  | some w => rfl
  | none => simp [dictFind_append, dictFind, h]

theorem dictInsertIfAbsent_of_found (k : α) (v w : β) (d : List (α × β))
    (h : dictFind k d = some w) : dictInsertIfAbsent k v d = d := by
  unfold dictInsertIfAbsent
  rw [h]

theorem dictFind_modify_self (k : α) (f : β → β) (d : List (α × β)) :
    dictFind k (dictModify k f d) = (dictFind k d).map f := by
  induction d with
  | nil => simp [dictModify, dictFind]
  | cons p rest ih =>
    obtain ⟨k', v⟩ := p
    by_cases h : k = k' <;> simp [dictModify, dictFind, h, ih]

theorem dictFind_modify_ne (k k' : α) (f : β → β) (d : List (α × β)) (h : k' ≠ k) :
    dictFind k' (dictModify k f d) = dictFind k' d := by
  induction d with
  | nil => simp [dictModify]
  | cons p rest ih =>
    obtain ⟨k'', v⟩ := p
    by_cases h2 : k = k''
    · subst h2
      simp [dictModify, dictFind, h]
    · by_cases h3 : k' = k'' <;> simp [dictModify, dictFind, h2, h3, ih]

theorem dictModify_keys (k : α) (f : β → β) (d : List (α × β)) :
    (dictModify k f d).map Prod.fst = d.map Prod.fst := by
  induction d with
  | nil => rfl
  | cons p rest ih =>
    obtain ⟨k', v⟩ := p
    by_cases h : k = k' <;> simp [dictModify, h, ih]

/-- Python `set.add`: append if not already a member. -/
def setAdd (x : α) (s : List α) : List α :=
  if x ∈ s then s else s ++ [x]

theorem mem_setAdd (x y : α) (s : List α) : y ∈ setAdd x s ↔ y ∈ s ∨ y = x := by
  unfold setAdd
  by_cases h : x ∈ s
  · simp only [if_pos h]
    constructor
    · exact Or.inl
    · rintro (hy | rfl)
      · exact hy
      · exact h
  · simp [if_neg h]

theorem nodup_setAdd (x : α) (s : List α) (h : s.Nodup) : (setAdd x s).Nodup := by
  unfold setAdd
  by_cases hx : x ∈ s
  · simpa [hx]
  · simp [hx, List.nodup_append, h]

end Dict

/-- The `DirectedGraph` class: an edge list, successor and predecessor
adjacency dictionaries, and the node set (insertion-ordered, duplicate-free). -/
structure DirectedGraph (α : Type) where
  edges : List (α × α)
  successors : List (α × List α)
  predecessors : List (α × List α)
  nodes : List α
  deriving DecidableEq

namespace DirectedGraph

variable {α : Type} [DecidableEq α]

/-- `DirectedGraph.__init__`: all containers empty. -/
def empty : DirectedGraph α := ⟨[], [], [], []⟩

/-- `add_edge(u, v)`.  As in the source, the successor entry for `u` and the
predecessor entry for `v` are first created as `[]` when absent; the call then
raises if `v in self.successors[u]`, leaving the (so far updated) state, which
the error value carries; otherwise it appends to all four containers. -/
def add_edge (g : DirectedGraph α) (u v : α) :
    Except (DirectedGraph α) (DirectedGraph α) :=
  let succ1 := dictInsertIfAbsent u [] g.successors
  let pred1 := dictInsertIfAbsent v [] g.predecessors
  if v ∈ (dictFind u succ1).getD [] then
    .error { g with successors := succ1, predecessors := pred1 }
  else
    .ok { edges := g.edges ++ [(u, v)]
          successors := dictModify u (fun l => l ++ [v]) succ1
          predecessors := dictModify v (fun l => l ++ [u]) pred1
          nodes := setAdd v (setAdd u g.nodes) }

/-- `get_successors(u)`: `self.successors.get(u, [])`. -/
def get_successors (g : DirectedGraph α) (u : α) : List α :=
  (dictFind u g.successors).getD []

/-- `get_predecessors(u)`: `self.predecessors.get(u, [])`. -/
def get_predecessors (g : DirectedGraph α) (u : α) : List α :=
  (dictFind u g.predecessors).getD []

/-- `get_nodes()`. -/
def get_nodes (g : DirectedGraph α) : List α := g.nodes

/-- `get_edges()`. -/
def get_edges (g : DirectedGraph α) : List (α × α) := g.edges

end DirectedGraph

/-- The state a failed or successful `add_edge` call leaves behind (in Python
the object is mutated in place whether or not the call raises). -/
def resState {α : Type} (r : Except (DirectedGraph α) (DirectedGraph α)) : DirectedGraph α :=
  match r with
  | .ok g => g
  | .error g => g

/-- `random_dag(n_nodes, edge_threshold)`.  `coin u v` stands for the draw
`random() > edge_threshold` made for the pair `(u, v)`; the double `for` loop
over `range(n_nodes)` and `range(u+1, n_nodes)` becomes a double monadic fold.
An uncaught `add_edge` exception propagates (error carries the graph state). -/
def random_dag (n_nodes : Nat) (coin : Nat → Nat → Bool) :
    Except (DirectedGraph Nat) (DirectedGraph Nat) :=
  (List.range n_nodes).foldlM
    (fun g u =>
      (List.range' (u + 1) (n_nodes - (u + 1))).foldlM
        (fun g' v => if coin u v then g'.add_edge u v else .ok g') g)
    DirectedGraph.empty

/-- The index map `{v: i for (i, v) in enumerate(sequence)}` of
`is_topological_sort`: later assignments overwrite earlier ones, so `index[v]`
is the index of the LAST occurrence of `v`, and a missing key is `none`. -/
def lastIdx {α : Type} [DecidableEq α] (v : α) : List α → Option Nat
  | [] => none
  | x :: rest =>
    match lastIdx v rest with
    | some i => some (i + 1)
    | none => if x = v then some 0 else none

/-- The generator `all(index[u] < index[v] for (u, v) in graph.get_edges())`:
short-circuits on the first failing edge; a missing index raises `KeyError`. -/
def allEdgesOrdered {α : Type} [DecidableEq α] (seq : List α) :
    List (α × α) → Except String Bool
  | [] => .ok true
  | (u, v) :: rest =>
    match lastIdx u seq, lastIdx v seq with
    | some i, some j => if i < j then allEdgesOrdered seq rest else .ok false
    | _, _ => .error "KeyError"

/-- `is_topological_sort(graph, sequence)`: first the set comparison
`set(sequence) != set(graph.get_nodes())`, then the per-edge position check. -/
def is_topological_sort {α : Type} [DecidableEq α] (graph : DirectedGraph α)
    (sequence : List α) : Except String Bool :=
  if sequence.toFinset ≠ graph.get_nodes.toFinset then .ok false
  else allEdgesOrdered sequence graph.get_edges

namespace Kahn

variable {α : Type} [DecidableEq α]

/-- The degree map built by the first loop of `kahns_algo`:
`degrees[u] = len(graph.get_predecessors(u))` for each node, in node order. -/
def initDegrees (g : DirectedGraph α) : List (α × Int) :=
  g.get_nodes.map (fun u => (u, ((g.get_predecessors u).length : Int)))

/-- The initial worklist of the first loop of `kahns_algo`: the nodes whose
predecessor list is empty, in node order. -/
def initZero (g : DirectedGraph α) : List α :=
  g.get_nodes.filter (fun u => (g.get_predecessors u).length = 0)

/-- The inner `for v in graph.get_successors(u)` loop body:
`degrees[v] -= 1; if degrees[v] == 0: zero_nodes.append(v)`.
A missing `degrees` key is a `KeyError`. -/
def processSucc : List α → List (α × Int) → List α →
    Except String (List (α × Int) × List α)
  | [], degs, zs => .ok (degs, zs)
  | v :: rest, degs, zs =>
    match dictFind v degs with
    | none => .error "KeyError"
    | some d =>
      processSucc rest (dictModify v (fun x => x - 1) degs)
        (if d - 1 = 0 then zs ++ [v] else zs)

/-- The `while len(zero_nodes) > 0` loop, with fuel.  `zero_nodes.pop()`
removes the LAST element.  We prove below that fuel `len(nodes)` suffices for
the worklist to be empty when the fuel runs out, so the fuelled loop returns
exactly what the unbounded loop returns. -/
def kahnLoop (g : DirectedGraph α) :
    Nat → List (α × Int) → List α → List α → Except String (List α)
  | 0, _, _, ts => .ok ts
  | fuel + 1, degs, zs, ts =>
    match zs.getLast? with
    | none => .ok ts
    | some u =>
      match processSucc (g.get_successors u) degs zs.dropLast with
      | .error e => .error e
      | .ok (degs', zs') => kahnLoop g fuel degs' zs' (ts ++ [u])

/-- `kahns_algo(graph)`: run the loop, then raise iff the output is shorter
than the node count. -/
def kahns_algo (g : DirectedGraph α) : Except String (List α) :=
  match kahnLoop g g.get_nodes.length (initDegrees g) (initZero g) [] with
  | .error e => .error e
  | .ok ts =>
    if ts.length < g.get_nodes.length then .error "Graph contains a cycle"
    else .ok ts

end Kahn

/-- `topological_sort(graph)` just delegates to `kahns_algo`. -/
def topological_sort {α : Type} [DecidableEq α] (g : DirectedGraph α) :
    Except String (List α) :=
  Kahn.kahns_algo g

/-! ## Well-formedness

The representation invariant the graph class maintains (every state reachable
through `add_edge` calls satisfies it, as proved below). -/

/-- The representation invariant of `DirectedGraph`. -/
structure WF {α : Type} [DecidableEq α] (g : DirectedGraph α) : Prop where
  mem_suc : ∀ u v : α, (u, v) ∈ g.edges ↔ v ∈ g.get_successors u
  mem_pred : ∀ u v : α, (u, v) ∈ g.edges ↔ u ∈ g.get_predecessors v
  nodup_suc : ∀ u : α, (g.get_successors u).Nodup
  nodup_pred : ∀ u : α, (g.get_predecessors u).Nodup
  mem_nodes : ∀ w : α, w ∈ g.nodes ↔ ∃ e ∈ g.edges, e.1 = w ∨ e.2 = w
  nodup_nodes : g.nodes.Nodup

section GraphLemmas

variable {α : Type} [DecidableEq α]

theorem wf_empty : WF (DirectedGraph.empty : DirectedGraph α) := by
  constructor <;>
    simp [DirectedGraph.empty, DirectedGraph.get_successors,
      DirectedGraph.get_predecessors, dictFind]

/-- Nodes of a well-formed graph contain all predecessors. -/
theorem pred_mem_nodes {g : DirectedGraph α} (hg : WF g) {v p : α}
    (hp : p ∈ g.get_predecessors v) : p ∈ g.nodes := by
  rw [hg.mem_nodes]
  exact ⟨(p, v), (hg.mem_pred p v).mpr hp, Or.inl rfl⟩

/-- Nodes of a well-formed graph contain all successors. -/
theorem suc_mem_nodes {g : DirectedGraph α} (hg : WF g) {u s : α}
    (hs : s ∈ g.get_successors u) : s ∈ g.nodes := by
  rw [hg.mem_nodes]
  exact ⟨(u, s), (hg.mem_suc u s).mpr hs, Or.inr rfl⟩

/-- In a well-formed graph the raise condition of `add_edge` is exactly edge
membership, and moreover the two "ensure key" statements are no-ops when the
edge is already present. -/
theorem add_edge_error_of_mem {g : DirectedGraph α} (hg : WF g) {u v : α}
    (h : (u, v) ∈ g.edges) : g.add_edge u v = .error g := by
  have hsuc : v ∈ g.get_successors u := (hg.mem_suc u v).mp h
  have hpred : u ∈ g.get_predecessors v := (hg.mem_pred u v).mp h
  have hsk : ∃ l, dictFind u g.successors = some l ∧ v ∈ l := by
    unfold DirectedGraph.get_successors at hsuc
    cases hf : dictFind u g.successors with
    | none => rw [hf] at hsuc; simp at hsuc
    | some l => rw [hf] at hsuc; exact ⟨l, rfl, hsuc⟩
  have hpk : ∃ l, dictFind v g.predecessors = some l ∧ u ∈ l := by
    unfold DirectedGraph.get_predecessors at hpred
    cases hf : dictFind v g.predecessors with
    | none => rw [hf] at hpred; simp at hpred
    | some l => rw [hf] at hpred; exact ⟨l, rfl, hpred⟩
  obtain ⟨ls, hfs, hvs⟩ := hsk
  obtain ⟨lp, hfp, _⟩ := hpk
  unfold DirectedGraph.add_edge
  rw [dictInsertIfAbsent_of_found u [] ls g.successors hfs,
    dictInsertIfAbsent_of_found v [] lp g.predecessors hfp]
  simp only [hfs, Option.getD_some, if_pos hvs]

/-- Successful branch of `add_edge`: characterization of the new state. -/
theorem add_edge_ok {g : DirectedGraph α} (hg : WF g) {u v : α}
    (h : (u, v) ∉ g.edges) :
    ∃ g', g.add_edge u v = .ok g' ∧
      g'.edges = g.edges ++ [(u, v)] ∧
      (∀ w, g'.get_successors w =
        if w = u then g.get_successors u ++ [v] else g.get_successors w) ∧
      (∀ w, g'.get_predecessors w =
        if w = v then g.get_predecessors v ++ [u] else g.get_predecessors w) ∧
      g'.nodes = setAdd v (setAdd u g.nodes) := by
  have hsuc : v ∉ g.get_successors u := fun hv => h ((hg.mem_suc u v).mpr hv)
  have hcond : v ∉ (dictFind u (dictInsertIfAbsent u [] g.successors)).getD [] := by
    rw [dictFind_insertIfAbsent_self]
    unfold DirectedGraph.get_successors at hsuc
    cases hf : dictFind u g.successors with
    | none => simp [hf]
    | some l => rw [hf] at hsuc; simpa [hf] using hsuc
  refine ⟨{ edges := g.edges ++ [(u, v)]
            successors := dictModify u (fun l => l ++ [v])
              (dictInsertIfAbsent u [] g.successors)
            predecessors := dictModify v (fun l => l ++ [u])
              (dictInsertIfAbsent v [] g.predecessors)
            nodes := setAdd v (setAdd u g.nodes) }, ?_, rfl, ?_, ?_, rfl⟩
  · unfold DirectedGraph.add_edge
    simp only [if_neg hcond]
  · intro w
    unfold DirectedGraph.get_successors
    by_cases hw : w = u
    · subst hw
      simp only [if_pos rfl]
      rw [dictFind_modify_self, dictFind_insertIfAbsent_self]
      cases hf : dictFind w g.successors with
      | none => simp [hf]
      | some l => simp [hf]
    · simp only [if_neg hw]
      rw [dictFind_modify_ne _ _ _ _ hw, dictFind_insertIfAbsent_ne _ _ _ _ hw]
  · intro w
    unfold DirectedGraph.get_predecessors
    by_cases hw : w = v
    · subst hw
      simp only [if_pos rfl]
      rw [dictFind_modify_self, dictFind_insertIfAbsent_self]
      cases hf : dictFind w g.predecessors with
      | none => simp [hf]
      | some l => simp [hf]
    · simp only [if_neg hw]
      rw [dictFind_modify_ne _ _ _ _ hw, dictFind_insertIfAbsent_ne _ _ _ _ hw]

/-- The successful branch of `add_edge` preserves well-formedness. -/
theorem wf_add_edge_ok {g g' : DirectedGraph α} (hg : WF g) {u v : α}
    (h : (u, v) ∉ g.edges) (hok : g.add_edge u v = .ok g') : WF g' := by
  obtain ⟨g'', hok', he, hs, hp, hn⟩ := add_edge_ok hg h
  rw [hok'] at hok
  injection hok with hok
  subst hok
  have hsuc : v ∉ g.get_successors u := fun hv => h ((hg.mem_suc u v).mpr hv)
  have hpred : u ∉ g.get_predecessors v := fun hv => h ((hg.mem_pred u v).mpr hv)
  constructor
  · intro a b
    rw [he]
    constructor
    · intro hab
      rcases List.mem_append.mp hab with hab | hab
      · have hb : b ∈ g.get_successors a := (hg.mem_suc a b).mp hab
        rw [hs a]
        by_cases ha : a = u
        · rw [if_pos ha]
          rw [ha] at hb
          exact List.mem_append_left _ hb
        · rw [if_neg ha]
          exact hb
      · simp only [List.mem_singleton, Prod.mk.injEq] at hab
        obtain ⟨rfl, rfl⟩ := hab
        rw [hs a, if_pos rfl]
        exact List.mem_append_right _ (by simp)
    · intro hb
      rw [hs a] at hb
      by_cases ha : a = u
      · rw [if_pos ha] at hb
        rcases List.mem_append.mp hb with hb | hb
        · rw [← ha] at hb
          exact List.mem_append_left _ ((hg.mem_suc a b).mpr hb)
        · simp only [List.mem_singleton] at hb
          rw [ha, hb]
          exact List.mem_append_right _ (by simp)
      · rw [if_neg ha] at hb
        exact List.mem_append_left _ ((hg.mem_suc a b).mpr hb)
  · intro a b
    rw [he]
    constructor
    · intro hab
      rcases List.mem_append.mp hab with hab | hab
      · have ha : a ∈ g.get_predecessors b := (hg.mem_pred a b).mp hab
        rw [hp b]
        by_cases hb : b = v
        · rw [if_pos hb]
          rw [hb] at ha
          exact List.mem_append_left _ ha
        · rw [if_neg hb]
          exact ha
      · simp only [List.mem_singleton, Prod.mk.injEq] at hab
        obtain ⟨rfl, rfl⟩ := hab
        rw [hp b, if_pos rfl]
        exact List.mem_append_right _ (by simp)
    · intro ha
      rw [hp b] at ha
      by_cases hb : b = v
      · rw [if_pos hb] at ha
        rcases List.mem_append.mp ha with ha | ha
        · rw [← hb] at ha
          exact List.mem_append_left _ ((hg.mem_pred a b).mpr ha)
        · simp only [List.mem_singleton] at ha
          rw [hb, ha]
          exact List.mem_append_right _ (by simp)
      · rw [if_neg hb] at ha
        exact List.mem_append_left _ ((hg.mem_pred a b).mpr ha)
  · intro w
    rw [hs w]
    by_cases hw : w = u
    · subst hw
      simp only [if_pos rfl]
      exact List.Nodup.append (hg.nodup_suc w) (List.nodup_singleton v)
        (by simpa using hsuc)
    · simp only [if_neg hw]; exact hg.nodup_suc w
  · intro w
    rw [hp w]
    by_cases hw : w = v
    · subst hw
      simp only [if_pos rfl]
      exact List.Nodup.append (hg.nodup_pred w) (List.nodup_singleton u)
        (by simpa using hpred)
    · simp only [if_neg hw]; exact hg.nodup_pred w
  · intro w
    rw [hn, mem_setAdd, mem_setAdd, he, hg.mem_nodes]
    constructor
    · rintro ((⟨e, hel, hw⟩ | rfl) | rfl)
      · exact ⟨e, List.mem_append_left _ hel, hw⟩
      · exact ⟨(w, v), List.mem_append_right _ (by simp), Or.inl rfl⟩
      · exact ⟨(u, w), List.mem_append_right _ (by simp), Or.inr rfl⟩
    · rintro ⟨e, hel, hw⟩
      rcases List.mem_append.mp hel with hel | hel
      · exact Or.inl (Or.inl ⟨e, hel, hw⟩)
      · simp only [List.mem_singleton] at hel
        subst hel
        rcases hw with rfl | rfl
        · exact Or.inl (Or.inr rfl)
        · exact Or.inr rfl
  · rw [hn]
    exact nodup_setAdd _ _ (nodup_setAdd _ _ hg.nodup_nodes)

/-- Any `add_edge` call (successful or failing) preserves well-formedness. -/
theorem wf_add_edge (g : DirectedGraph α) (hg : WF g) (u v : α) :
    WF (resState (g.add_edge u v)) := by
  by_cases h : (u, v) ∈ g.edges
  · rw [add_edge_error_of_mem hg h]
    exact hg
  · obtain ⟨g', hok, _⟩ := add_edge_ok hg h
    rw [hok]
    exact wf_add_edge_ok hg h hok

end GraphLemmas

/-! ## Cycles -/

section Cycles

variable {α : Type} [DecidableEq α]

/-- `c` is a directed cycle of `g`: `c` is nonempty and following its entries
in order, then returning from its last entry to its first, only traverses
edges of `g`.  A self-loop is the cycle `[u]`. -/
def IsCycle (g : DirectedGraph α) : List α → Prop
  | [] => False
  | u :: rest => List.Chain (fun a b => (a, b) ∈ g.edges) u (rest ++ [u])

/-- The graph contains at least one directed cycle. -/
def HasCycle (g : DirectedGraph α) : Prop := ∃ c, IsCycle g c

theorem chain_exists_pred {R : α → α → Prop} {a : α} {l : List α}
    (h : List.Chain R a l) : ∀ x ∈ l, ∃ p ∈ a :: l, R p x := by
  induction h with
  | nil => simp
  | @cons a b l hr hc ih =>
    intro x hx
    rcases List.mem_cons.mp hx with rfl | hx
    · exact ⟨a, List.mem_cons_self a _, hr⟩
    · obtain ⟨p, hp, hpr⟩ := ih x hx
      exact ⟨p, List.mem_cons_of_mem a hp, hpr⟩

/-- Every node lying on a cycle has a predecessor lying on the same cycle. -/
theorem cycle_nodes_have_pred {g : DirectedGraph α} {c : List α}
    (hc : IsCycle g c) : ∀ x ∈ c, ∃ p ∈ c, (p, x) ∈ g.edges := by
  match c with
  | [] => exact absurd hc (by simp [IsCycle])
  | u :: rest =>
    intro x hx
    have hx' : x ∈ rest ++ [u] := by
      rcases List.mem_cons.mp hx with rfl | hx
      · exact List.mem_append_right _ (by simp)
      · exact List.mem_append_left _ hx
    obtain ⟨p, hp, hpr⟩ := chain_exists_pred hc x hx'
    refine ⟨p, ?_, hpr⟩
    rcases List.mem_cons.mp hp with rfl | hp
    · exact List.mem_cons_self _ _
    · rcases List.mem_append.mp hp with hp | hp
      · exact List.mem_cons_of_mem _ hp
      · simp only [List.mem_singleton] at hp
        rw [hp]
        exact List.mem_cons_self _ _

theorem chain_append_trunc {R : α → α → Prop} :
    ∀ (A : List α) (x y : α) (B : List α),
      List.Chain R x (A ++ y :: B) → List.Chain R x (A ++ [y]) := by
  intro A
  induction A with
  | nil =>
    intro x y B h
    rcases List.chain_cons.mp h with ⟨hxy, _⟩
    exact List.chain_cons.mpr ⟨hxy, List.Chain.nil⟩
  | cons a A' ih =>
    intro x y B h
    rcases List.chain_cons.mp h with ⟨hxa, h'⟩
    exact List.chain_cons.mpr ⟨hxa, ih a y B h'⟩

theorem chain_lt_of_increasing {R : α → α → Prop} {f : α → Nat}
    (hR : ∀ a b, R a b → f a < f b) :
    ∀ (l : List α) (x y : α), List.Chain R x (l ++ [y]) → f x < f y := by
  intro l
  induction l with
  | nil =>
    intro x y h
    rcases List.chain_cons.mp h with ⟨hxy, _⟩
    exact hR x y hxy
  | cons a l' ih =>
    intro x y h
    rcases List.chain_cons.mp h with ⟨hxa, h'⟩
    exact lt_trans (hR x a hxa) (ih a y h')

/-- If some numbering strictly increases along every edge, the graph is
acyclic. -/
theorem acyclic_of_increasing (g : DirectedGraph α) (f : α → Nat)
    (hf : ∀ a b, (a, b) ∈ g.edges → f a < f b) : ¬ HasCycle g := by
  rintro ⟨c, hc⟩
  match c with
  | [] => exact hc
  | u :: rest =>
    have : f u < f u := chain_lt_of_increasing hf rest u u hc
    omega

theorem length_le_of_nodup_subset (L S : List α) (hL : L.Nodup)
    (hsub : ∀ x ∈ L, x ∈ S) (hS : S.Nodup) : L.length ≤ S.length := by
  have h1 : L.toFinset.card = L.length := List.toFinset_card_of_nodup hL
  have h2 : S.toFinset.card = S.length := List.toFinset_card_of_nodup hS
  have h3 : L.toFinset ⊆ S.toFinset := fun x hx =>
    List.mem_toFinset.mpr (hsub x (List.mem_toFinset.mp hx))
  calc L.length = L.toFinset.card := h1.symm
    _ ≤ S.toFinset.card := Finset.card_le_card h3
    _ = S.length := h2

theorem walk_aux (g : DirectedGraph α) (S : List α) (hS : S.Nodup)
    (hstep : ∀ v ∈ S, ∃ p, p ∈ S ∧ (p, v) ∈ g.edges) :
    ∀ (m : Nat) (z : α) (L : List α), z ∈ S → (∀ y ∈ L, y ∈ S) →
      (z :: L).Nodup → List.Chain (fun a b => (a, b) ∈ g.edges) z L →
      S.length < m + (z :: L).length → HasCycle g := by
  intro m
  induction m with
  | zero =>
    intro z L hz hL hnd hch hlen
    have hle : (z :: L).length ≤ S.length :=
      length_le_of_nodup_subset (z :: L) S hnd
        (fun y hy => by
          rcases List.mem_cons.mp hy with rfl | hy
          · exact hz
          · exact hL y hy) hS
    omega
  | succ m ih =>
    intro z L hz hL hnd hch hlen
    obtain ⟨p, hpS, hpe⟩ := hstep z hz
    by_cases hpL : p ∈ z :: L
    · obtain ⟨A, B, hAB⟩ := List.append_of_mem hpL
      refine ⟨p :: A, ?_⟩
      show List.Chain (fun a b => (a, b) ∈ g.edges) p (A ++ [p])
      have hch2 : List.Chain (fun a b => (a, b) ∈ g.edges) p (z :: L) :=
        List.Chain.cons hpe hch
      rw [hAB] at hch2
      exact chain_append_trunc A p p B hch2
    · refine ih p (z :: L) hpS
        (fun y hy => by
          rcases List.mem_cons.mp hy with rfl | hy
          · exact hz
          · exact hL y hy)
        (List.nodup_cons.mpr ⟨hpL, hnd⟩) (List.Chain.cons hpe hch) ?_
      simp only [List.length_cons] at hlen ⊢
      omega

/-- If every member of a nonempty duplicate-free node list has an edge
predecessor inside the list, the graph has a cycle. -/
theorem hasCycle_of_all_pred (g : DirectedGraph α) (S : List α) (hS : S.Nodup)
    (hstep : ∀ v ∈ S, ∃ p, p ∈ S ∧ (p, v) ∈ g.edges) (hne : S ≠ []) :
    HasCycle g := by
  match S, hne with
  | z :: S', _ =>
    exact walk_aux g (z :: S') hS hstep (z :: S').length z []
      (List.mem_cons_self _ _) (by simp) (List.nodup_cons.mpr (by simp))
      List.Chain.nil (by simp)

end Cycles

/-! ## Orderings produced by the sorter -/

section Ordering

variable {α : Type} [DecidableEq α]

/-- Every entry of `ts` has all of its graph predecessors strictly earlier in
`ts`. -/
def PrefixClosed (g : DirectedGraph α) (ts : List α) : Prop :=
  ∀ t1 v t2, ts = t1 ++ v :: t2 → ∀ p ∈ g.get_predecessors v, p ∈ t1

theorem prefixClosed_nil (g : DirectedGraph α) : PrefixClosed g [] := by
  intro t1 v t2 h
  simp at h

theorem concat_split (ts : List α) (u : α) (t1 : List α) (v : α) (t2 : List α)
    (h : ts ++ [u] = t1 ++ v :: t2) :
    (t1 = ts ∧ v = u ∧ t2 = []) ∨ ∃ t2', t2 = t2' ++ [u] ∧ ts = t1 ++ v :: t2' := by
  rcases List.eq_nil_or_concat t2 with rfl | ⟨t2', u', rfl⟩
  · left
    obtain ⟨h1, h2⟩ := List.append_inj' h (by simp)
    simp only [List.cons.injEq] at h2
    exact ⟨h1.symm, h2.1.symm, rfl⟩
  · right
    simp only [List.concat_eq_append] at h ⊢
    have h2 : ts ++ [u] = (t1 ++ v :: t2') ++ [u'] := by rw [h]; simp
    obtain ⟨h3, h4⟩ := List.append_inj' h2 (by simp)
    simp only [List.cons.injEq] at h4
    exact ⟨t2', by rw [h4.1], h3⟩

theorem prefixClosed_concat (g : DirectedGraph α) (ts : List α) (u : α)
    (hts : PrefixClosed g ts) (hu : ∀ p ∈ g.get_predecessors u, p ∈ ts) :
    PrefixClosed g (ts ++ [u]) := by
  intro t1 v t2 hsplit p hp
  rcases concat_split ts u t1 v t2 hsplit with ⟨rfl, rfl, rfl⟩ | ⟨t2', rfl, hts_eq⟩
  · exact hu p hp
  · exact hts t1 v t2' hts_eq p hp

theorem prefixClosed_mem (g : DirectedGraph α) (ts : List α)
    (h : PrefixClosed g ts) (v : α) (hv : v ∈ ts) :
    ∀ p ∈ g.get_predecessors v, p ∈ ts := by
  obtain ⟨A, B, rfl⟩ := List.append_of_mem hv
  intro p hp
  exact List.mem_append_left _ (h A v B rfl p hp)

/-- No node lying on a cycle can occur in a prefix-closed list. -/
theorem cycle_disjoint_prefixClosed {g : DirectedGraph α} (hg : WF g)
    (ts c : List α) (hts : PrefixClosed g ts)
    (hc : ∀ x ∈ c, ∃ p ∈ c, (p, x) ∈ g.edges) : ∀ x ∈ c, x ∉ ts := by
  have aux : ∀ n : Nat, ∀ t1 x t2, ts = t1 ++ x :: t2 → t1.length ≤ n → x ∉ c := by
    intro n
    induction n with
    | zero =>
      intro t1 x t2 hsplit hlen hxc
      obtain ⟨p, hpc, hpe⟩ := hc x hxc
      have hp1 : p ∈ t1 := hts t1 x t2 hsplit p ((hg.mem_pred p x).mp hpe)
      have : t1 = [] := List.length_eq_zero.mp (Nat.le_zero.mp hlen)
      rw [this] at hp1
      simp at hp1
    | succ n ih =>
      intro t1 x t2 hsplit hlen hxc
      obtain ⟨p, hpc, hpe⟩ := hc x hxc
      have hp1 : p ∈ t1 := hts t1 x t2 hsplit p ((hg.mem_pred p x).mp hpe)
      obtain ⟨A, B, hAB⟩ := List.append_of_mem hp1
      have hsplit2 : ts = A ++ p :: (B ++ x :: t2) := by
        rw [hsplit, hAB]
        simp
      have hlenA : A.length ≤ n := by
        have : A.length < t1.length := by
          rw [hAB]
          simp only [List.length_append, List.length_cons]
          omega
        omega
      exact ih A p (B ++ x :: t2) hsplit2 hlenA hpc
  intro x hxc hxts
  obtain ⟨t1, t2, hsplit⟩ := List.append_of_mem hxts
  exact aux t1.length t1 x t2 hsplit (le_refl _) hxc

end Ordering

/-! ## The index map of the validator -/

section LastIdx

variable {α : Type} [DecidableEq α]

theorem lastIdx_eq_none_iff (v : α) (l : List α) : lastIdx v l = none ↔ v ∉ l := by
  induction l with
  | nil => simp [lastIdx]
  | cons x rest ih =>
    cases h : lastIdx v rest with
    | some i =>
      have hv : v ∈ rest := by
        by_contra hv
        rw [(ih.mpr hv)] at h
        exact Option.noConfusion h
      simp only [lastIdx, h, List.mem_cons]
      constructor
      · intro he
        exact Option.noConfusion he
      · intro he
        exact absurd (Or.inr hv) he
    | none =>
      have hv : v ∉ rest := ih.mp h
      by_cases hx : x = v
      · simp only [lastIdx, h, if_pos hx, List.mem_cons]
        constructor
        · intro he
          exact Option.noConfusion he
        · intro he
          exact absurd (Or.inl hx.symm) he
      · simp only [lastIdx, h, if_neg hx, List.mem_cons]
        constructor
        · intro _ hmem
          rcases hmem with rfl | hmem
          · exact hx rfl
          · exact hv hmem
        · intro _
          trivial

theorem lastIdx_isSome_of_mem (v : α) (l : List α) (h : v ∈ l) :
    ∃ i, lastIdx v l = some i := by
  cases hf : lastIdx v l with
  | none => exact absurd ((lastIdx_eq_none_iff v l).mp hf) (fun hn => hn h)
  | some i => exact ⟨i, rfl⟩

theorem lastIdx_of_split (l1 : List α) (v : α) (l2 : List α) (hv : v ∉ l2) :
    lastIdx v (l1 ++ v :: l2) = some l1.length := by
  induction l1 with
  | nil =>
    show lastIdx v (v :: l2) = some 0
    unfold lastIdx
    rw [(lastIdx_eq_none_iff v l2).mpr hv]
    simp
  | cons x l1' ih =>
    show lastIdx v (x :: (l1' ++ v :: l2)) = some (l1'.length + 1)
    unfold lastIdx
    rw [ih]

/-- In a duplicate-free list split as `t1 ++ v :: t2`, the index of `v` is
`t1.length` and any member of `t1` has a strictly smaller index. -/
theorem lastIdx_lt_of_split (ts t1 : List α) (v : α) (t2 : List α)
    (hnd : ts.Nodup) (hsplit : ts = t1 ++ v :: t2) (u : α) (hu : u ∈ t1) :
    ∃ i j, lastIdx u ts = some i ∧ lastIdx v ts = some j ∧ i < j := by
  have hvt2 : v ∉ t2 := by
    rw [hsplit] at hnd
    have := (List.nodup_append.mp hnd).2.1
    exact (List.nodup_cons.mp this).1
  obtain ⟨A, B, hAB⟩ := List.append_of_mem hu
  have hts2 : ts = A ++ u :: (B ++ v :: t2) := by
    rw [hsplit, hAB]
    simp
  have huB : u ∉ B ++ v :: t2 := by
    rw [hts2] at hnd
    have := (List.nodup_append.mp hnd).2.1
    exact (List.nodup_cons.mp this).1
  refine ⟨A.length, t1.length, ?_, ?_, ?_⟩
  · rw [hts2]
    exact lastIdx_of_split A u (B ++ v :: t2) huB
  · rw [hsplit]
    exact lastIdx_of_split t1 v t2 hvt2
  · rw [hAB]
    simp only [List.length_append, List.length_cons]
    omega

end LastIdx

/-! ## Characterization of the validator -/

section Validator

variable {α : Type} [DecidableEq α]

theorem allEdgesOrdered_ok_true_iff (seq : List α) (es : List (α × α)) :
    allEdgesOrdered seq es = .ok true ↔
      ∀ u v : α, (u, v) ∈ es → ∃ i j, lastIdx u seq = some i ∧
        lastIdx v seq = some j ∧ i < j := by
  induction es with
  | nil => simp [allEdgesOrdered]
  | cons e rest ih =>
    obtain ⟨u, v⟩ := e
    cases hu : lastIdx u seq with
    | none =>
      simp only [allEdgesOrdered, hu]
      constructor
      · intro h
        exact Except.noConfusion h
      · intro h
        obtain ⟨i, j, hi, _, _⟩ := h u v (List.mem_cons_self _ _)
        rw [hu] at hi
        exact Option.noConfusion hi
    | some i =>
      cases hv : lastIdx v seq with
      | none =>
        simp only [allEdgesOrdered, hu, hv]
        constructor
        · intro h
          exact Except.noConfusion h
        · intro h
          obtain ⟨i', j, _, hj, _⟩ := h u v (List.mem_cons_self _ _)
          rw [hv] at hj
          exact Option.noConfusion hj
      | some j =>
        by_cases hij : i < j
        · simp only [allEdgesOrdered, hu, hv, if_pos hij]
          rw [ih]
          constructor
          · intro h a b hab
            rcases List.mem_cons.mp hab with hab | hab
            · simp only [Prod.mk.injEq] at hab
              obtain ⟨rfl, rfl⟩ := hab
              exact ⟨i, j, hu, hv, hij⟩
            · exact h a b hab
          · intro h a b hab
            exact h a b (List.mem_cons_of_mem _ hab)
        · simp only [allEdgesOrdered, hu, hv, if_neg hij]
          constructor
          · intro h
            injection h with h
            exact Bool.noConfusion h
          · intro h
            obtain ⟨i', j', hi', hj', hij'⟩ := h u v (List.mem_cons_self _ _)
            rw [hu] at hi'
            rw [hv] at hj'
            injection hi' with hi'
            injection hj' with hj'
            subst hi'
            subst hj'
            exact absurd hij' hij

theorem allEdgesOrdered_ok_of_some (seq : List α) (es : List (α × α))
    (h : ∀ u v : α, (u, v) ∈ es → (lastIdx u seq).isSome ∧ (lastIdx v seq).isSome) :
    ∃ b, allEdgesOrdered seq es = .ok b := by
  induction es with
  | nil => exact ⟨true, rfl⟩
  | cons e rest ih =>
    obtain ⟨u, v⟩ := e
    obtain ⟨hu, hv⟩ := h u v (List.mem_cons_self _ _)
    obtain ⟨i, hi⟩ := Option.isSome_iff_exists.mp hu
    obtain ⟨j, hj⟩ := Option.isSome_iff_exists.mp hv
    by_cases hij : i < j
    · obtain ⟨b, hb⟩ := ih (fun a b hab => h a b (List.mem_cons_of_mem _ hab))
      exact ⟨b, by simp only [allEdgesOrdered, hi, hj, if_pos hij]; exact hb⟩
    · exact ⟨false, by simp only [allEdgesOrdered, hi, hj, if_neg hij]⟩

end Validator

/-! ## Kahn's algorithm: loop invariants -/

namespace Kahn

variable {α : Type} [DecidableEq α]

theorem processSucc_nil (degs : List (α × Int)) (zs : List α) :
    processSucc ([] : List α) degs zs = .ok (degs, zs) := rfl

theorem processSucc_cons_some (v : α) (rest : List α) (degs : List (α × Int))
    (zs : List α) (d : Int) (hd : dictFind v degs = some d) :
    processSucc (v :: rest) degs zs =
      processSucc rest (dictModify v (fun x => x - 1) degs)
        (if d - 1 = 0 then zs ++ [v] else zs) := by
  simp only [processSucc, hd]

/-- Full characterization of one pass of the inner `for v in successors` loop:
no `KeyError`, the entries of the visited keys each drop by one, and exactly
the nodes whose entry was `1` on loop entry are appended to the worklist, in
successor order. -/
theorem processSucc_spec : ∀ (vs : List α) (degs : List (α × Int)) (zs : List α),
    vs.Nodup → (∀ v ∈ vs, (dictFind v degs).isSome) →
    ∃ degs',
      processSucc vs degs zs =
        .ok (degs', zs ++ vs.filter (fun v => decide (dictFind v degs = some 1))) ∧
      (∀ w, dictFind w degs' =
        if w ∈ vs then (dictFind w degs).map (fun d => d - 1) else dictFind w degs) ∧
      degs'.map Prod.fst = degs.map Prod.fst := by
  intro vs
  induction vs with
  | nil =>
    intro degs zs _ _
    exact ⟨degs, by simp [processSucc_nil], fun w => by simp, rfl⟩
  | cons v rest ih =>
    intro degs zs hnd hsome
    obtain ⟨d, hd⟩ := Option.isSome_iff_exists.mp (hsome v (List.mem_cons_self _ _))
    have hv_rest : v ∉ rest := (List.nodup_cons.mp hnd).1
    have hrest_nd : rest.Nodup := (List.nodup_cons.mp hnd).2
    have hsome1 : ∀ w ∈ rest,
        (dictFind w (dictModify v (fun x => x - 1) degs)).isSome := by
      intro w hw
      have hwv : w ≠ v := fun he => hv_rest (he ▸ hw)
      rw [dictFind_modify_ne _ _ _ _ hwv]
      exact hsome w (List.mem_cons_of_mem _ hw)
    obtain ⟨degs', hps, hfind, hkeys⟩ :=
      ih (dictModify v (fun x => x - 1) degs)
        (if d - 1 = 0 then zs ++ [v] else zs) hrest_nd hsome1
    have hfc : rest.filter
          (fun w => decide (dictFind w (dictModify v (fun x => x - 1) degs) = some 1)) =
        rest.filter (fun w => decide (dictFind w degs = some 1)) := by
      apply List.filter_congr
      intro w hw
      have hwv : w ≠ v := fun he => hv_rest (he ▸ hw)
      rw [dictFind_modify_ne _ _ _ _ hwv]
    refine ⟨degs', ?_, ?_, ?_⟩
    · rw [processSucc_cons_some v rest degs zs d hd, hps, hfc]
      by_cases hd1 : d - 1 = 0
      · have hd' : d = 1 := by omega
        have : (v :: rest).filter (fun w => decide (dictFind w degs = some 1)) =
            v :: rest.filter (fun w => decide (dictFind w degs = some 1)) := by
          rw [List.filter_cons]
          simp [hd, hd']
        rw [this, if_pos hd1]
        simp
      · have hd' : d ≠ 1 := by omega
        have : (v :: rest).filter (fun w => decide (dictFind w degs = some 1)) =
            rest.filter (fun w => decide (dictFind w degs = some 1)) := by
          rw [List.filter_cons]
          simp [hd, hd']
        rw [this, if_neg hd1]
    · intro w
      rw [hfind w]
      by_cases hwv : w = v
      · subst hwv
        rw [if_neg (fun hw => hv_rest hw), if_pos (List.mem_cons_self _ _)]
        rw [dictFind_modify_self]
      · by_cases hwr : w ∈ rest
        · rw [if_pos hwr, if_pos (List.mem_cons_of_mem _ hwr)]
          rw [dictFind_modify_ne _ _ _ _ hwv]
        · rw [if_neg hwr, if_neg ?_, dictFind_modify_ne _ _ _ _ hwv]
          intro hmem
          rcases List.mem_cons.mp hmem with rfl | hmem
          · exact hwv rfl
          · exact hwr hmem
    · rw [hkeys]
      exact dictModify_keys _ _ _

theorem filter_notMem_concat_of_mem (P ts : List α) (u : α) (hP : P.Nodup)
    (hu : u ∉ ts) (huP : u ∈ P) :
    ((P.filter (fun p => decide (p ∉ ts ++ [u]))).length) + 1 =
      (P.filter (fun p => decide (p ∉ ts))).length := by
  have hsplit : P.filter (fun p => decide (p ∉ ts ++ [u])) =
      (P.filter (fun p => decide (p ∉ ts))).filter (fun p => decide (p ≠ u)) := by
    rw [List.filter_filter]
    apply List.filter_congr
    intro p _
    by_cases h1 : p ∈ ts <;> by_cases h2 : p = u <;> simp [h1, h2, List.mem_append]
  set L := P.filter (fun p => decide (p ∉ ts)) with hL
  have hLnd : L.Nodup := List.Nodup.filter _ hP
  have huL : u ∈ L := by
    rw [hL]
    rw [List.mem_filter]
    exact ⟨huP, by simpa using hu⟩
  have herase : L.filter (fun p => decide (p ≠ u)) = L.erase u := by
    rw [List.Nodup.erase_eq_filter hLnd]
    apply List.filter_congr
    intro p _
    by_cases h : p = u <;> simp [h]
  have hlen : (L.erase u).length = L.length - 1 := List.length_erase_of_mem huL
  have hpos : 0 < L.length := List.length_pos.mpr (List.ne_nil_of_mem huL)
  rw [hsplit, herase, hlen]
  omega

theorem filter_notMem_concat_of_not_mem (P ts : List α) (u : α) (huP : u ∉ P) :
    P.filter (fun p => decide (p ∉ ts ++ [u])) = P.filter (fun p => decide (p ∉ ts)) := by
  apply List.filter_congr
  intro p hp
  have hpu : p ≠ u := fun he => huP (he ▸ hp)
  by_cases h1 : p ∈ ts <;> simp [h1, hpu, List.mem_append]

end Kahn

namespace Kahn

variable {α : Type} [DecidableEq α]

theorem dictFind_map (f : α → Int) (l : List α) (v : α) (hv : v ∈ l) :
    dictFind v (l.map (fun u => (u, f u))) = some (f v) := by
  induction l with
  | nil => simp at hv
  | cons x rest ih =>
    by_cases hx : v = x
    · subst hx
      simp [dictFind]
    · rcases List.mem_cons.mp hv with rfl | hv'
      · exact absurd rfl hx
      · simpa [dictFind, hx] using ih hv'

theorem eq_singleton_of_nodup (F : List α) (u : α) (hnd : F.Nodup) (hu : u ∈ F)
    (hall : ∀ x ∈ F, x = u) : F = [u] := by
  match F, hu with
  | x :: rest, _ =>
    have hx : x = u := hall x (List.mem_cons_self _ _)
    subst hx
    cases rest with
    | nil => rfl
    | cons y rest' =>
      have hy : y = x := hall y (by simp)
      have := (List.nodup_cons.mp hnd).1
      rw [hy] at this
      simp at this

/-- The loop invariant of `kahns_algo`'s `while` loop, tied to the remaining
fuel.  `degs`, `zs`, `ts` are the current `degrees`, `zero_nodes`, `top_sort`. -/
structure KInv (g : DirectedGraph α) (fuel : Nat) (degs : List (α × Int))
    (zs ts : List α) : Prop where
  keys : degs.map Prod.fst = g.nodes
  ts_nodup : ts.Nodup
  ts_sub : ∀ x ∈ ts, x ∈ g.nodes
  deg : ∀ v ∈ g.nodes, dictFind v degs =
    some (((g.get_predecessors v).filter (fun p => decide (p ∉ ts))).length : Int)
  zs_iff : ∀ v, v ∈ zs ↔
    v ∈ g.nodes ∧ v ∉ ts ∧ ∀ p ∈ g.get_predecessors v, p ∈ ts
  zs_nodup : zs.Nodup
  closed : PrefixClosed g ts
  fuel_ok : g.nodes.length ≤ fuel + ts.length

theorem kinv_init (g : DirectedGraph α) (hg : WF g) :
    KInv g g.get_nodes.length (initDegrees g) (initZero g) [] := by
  constructor
  · unfold initDegrees DirectedGraph.get_nodes
    rw [List.map_map]
    have : (Prod.fst ∘ fun u : α => (u, ((g.get_predecessors u).length : Int))) =
        id := rfl
    rw [this, List.map_id]
  · exact List.nodup_nil
  · intro x hx
    simp at hx
  · intro v hv
    unfold initDegrees DirectedGraph.get_nodes
    rw [dictFind_map _ _ _ hv]
    congr 1
    have : (g.get_predecessors v).filter (fun p => decide (p ∉ ([] : List α))) =
        g.get_predecessors v := by
      apply List.filter_eq_self.mpr
      intro p _
      simp
    rw [this]
  · intro v
    unfold initZero
    rw [List.mem_filter]
    constructor
    · rintro ⟨hv, hlen⟩
      refine ⟨hv, by simp, ?_⟩
      intro p hp
      have hnil : g.get_predecessors v = [] := by
        rw [← List.length_eq_zero]
        simpa using hlen
      rw [hnil] at hp
      simp at hp
    · rintro ⟨hv, -, hpred⟩
      refine ⟨hv, ?_⟩
      have : g.get_predecessors v = [] := by
        rw [List.eq_nil_iff_forall_not_mem]
        intro p hp
        simpa using hpred p hp
      simp [this]
  · exact List.Nodup.filter _ hg.nodup_nodes
  · exact prefixClosed_nil g
  · simp [DirectedGraph.get_nodes]

theorem kinv_weaken {g : DirectedGraph α} {fuel fuel' : Nat}
    {degs : List (α × Int)} {zs ts : List α} (inv : KInv g fuel degs zs ts)
    (h : fuel ≤ fuel') : KInv g fuel' degs zs ts :=
  ⟨inv.keys, inv.ts_nodup, inv.ts_sub, inv.deg, inv.zs_iff, inv.zs_nodup,
    inv.closed, by have := inv.fuel_ok; omega⟩

theorem kinv_zs_nil {g : DirectedGraph α} {fuel : Nat} {degs : List (α × Int)}
    {zs ts : List α} (hg : WF g) (inv : KInv g fuel degs zs ts)
    (hfull : g.nodes.length ≤ ts.length) : zs = [] := by
  have hall : ∀ v ∈ g.nodes, v ∈ ts := by
    intro v hv
    have h1 : ts.toFinset ⊆ g.nodes.toFinset := fun x hx =>
      List.mem_toFinset.mpr (inv.ts_sub x (List.mem_toFinset.mp hx))
    have h2 : g.nodes.toFinset.card ≤ ts.toFinset.card := by
      rw [List.toFinset_card_of_nodup inv.ts_nodup,
        List.toFinset_card_of_nodup hg.nodup_nodes]
      exact hfull
    have := Finset.eq_of_subset_of_card_le h1 h2
    rw [← List.mem_toFinset, this, List.mem_toFinset]
    exact hv
  rw [List.eq_nil_iff_forall_not_mem]
  intro v hv
  obtain ⟨hvN, hvts, -⟩ := (inv.zs_iff v).mp hv
  exact hvts (hall v hvN)

theorem kinv_step {g : DirectedGraph α} (hg : WF g) {fuel : Nat}
    {degs : List (α × Int)} {zs ts l : List α} {u : α}
    (inv : KInv g (fuel + 1) degs zs ts) (hzs : zs = l ++ [u]) :
    ∃ degs' zs', processSucc (g.get_successors u) degs l = .ok (degs', zs') ∧
      KInv g fuel degs' zs' (ts ++ [u]) := by
  have hu_zs : u ∈ zs := by rw [hzs]; simp
  obtain ⟨hu_N, hu_ts, hu_pred⟩ := (inv.zs_iff u).mp hu_zs
  have hul : u ∉ l := by
    have := inv.zs_nodup
    rw [hzs, List.nodup_append] at this
    intro hu
    exact this.2.2 hu (by simp)
  have hl_nodup : l.Nodup := by
    have := inv.zs_nodup
    rw [hzs, List.nodup_append] at this
    exact this.1
  have hl_zs : ∀ x ∈ l, x ∈ zs := by
    intro x hx
    rw [hzs]
    exact List.mem_append_left _ hx
  have hsome : ∀ v ∈ g.get_successors u, (dictFind v degs).isSome := by
    intro v hv
    rw [inv.deg v (suc_mem_nodes hg hv)]
    simp
  obtain ⟨degs', hps, hfind, hkeys⟩ :=
    processSucc_spec (g.get_successors u) degs l (hg.nodup_suc u) hsome
  -- the number of not-yet-output predecessors of a node
  have cnt_spec : ∀ v ∈ g.nodes, dictFind v degs =
      some (((g.get_predecessors v).filter (fun p => decide (p ∉ ts))).length : Int) :=
    inv.deg
  -- nodes on the worklist have no pending predecessors
  have hdeg_zero : ∀ v ∈ zs,
      ((g.get_predecessors v).filter (fun p => decide (p ∉ ts))).length = 0 := by
    intro v hv
    obtain ⟨-, -, hpred⟩ := (inv.zs_iff v).mp hv
    rw [List.length_eq_zero]
    rw [List.filter_eq_nil_iff]
    intro p hp
    simpa using hpred p hp
  have hpush_mem : ∀ v,
      v ∈ (g.get_successors u).filter (fun w => decide (dictFind w degs = some 1)) ↔
      v ∈ g.get_successors u ∧
        ((g.get_predecessors v).filter (fun p => decide (p ∉ ts))).length = 1 := by
    intro v
    rw [List.mem_filter]
    constructor
    · rintro ⟨hv, hd⟩
      refine ⟨hv, ?_⟩
      have hd' : dictFind v degs = some 1 := by simpa using hd
      rw [cnt_spec v (suc_mem_nodes hg hv)] at hd'
      injection hd' with hd'
      exact_mod_cast hd'
    · rintro ⟨hv, hcnt⟩
      refine ⟨hv, ?_⟩
      rw [cnt_spec v (suc_mem_nodes hg hv), hcnt]
      simp
  refine ⟨degs', _, hps, ?_⟩
  constructor
  · rw [hkeys]
    exact inv.keys
  · rw [List.nodup_append]
    exact ⟨inv.ts_nodup, List.nodup_singleton u, by
      intro x hx hxu
      simp only [List.mem_singleton] at hxu
      subst hxu
      exact hu_ts hx⟩
  · intro x hx
    rcases List.mem_append.mp hx with hx | hx
    · exact inv.ts_sub x hx
    · simp only [List.mem_singleton] at hx
      subst hx
      exact hu_N
  · intro v hvN
    rw [hfind v]
    by_cases hv : v ∈ g.get_successors u
    · rw [if_pos hv, cnt_spec v hvN]
      have hupred : u ∈ g.get_predecessors v :=
        (hg.mem_pred u v).mp ((hg.mem_suc u v).mpr hv)
      have hcount := filter_notMem_concat_of_mem (g.get_predecessors v) ts u
        (hg.nodup_pred v) hu_ts hupred
      simp only [Option.map_some']
      congr 1
      omega
    · rw [if_neg hv, cnt_spec v hvN]
      have hupred : u ∉ g.get_predecessors v := by
        intro hupred
        exact hv ((hg.mem_suc u v).mp ((hg.mem_pred u v).mpr hupred))
      rw [filter_notMem_concat_of_not_mem (g.get_predecessors v) ts u hupred]
  · intro v
    rw [List.mem_append]
    constructor
    · rintro (hv | hv)
      · obtain ⟨hvN, hvts, hvpred⟩ := (inv.zs_iff v).mp (hl_zs v hv)
        have hvu : v ≠ u := fun he => hul (he ▸ hv)
        refine ⟨hvN, ?_, ?_⟩
        · intro hmem
          rcases List.mem_append.mp hmem with h | h
          · exact hvts h
          · simp only [List.mem_singleton] at h
            exact hvu h
        · intro p hp
          exact List.mem_append_left _ (hvpred p hp)
      · obtain ⟨hvsuc, hcnt⟩ := (hpush_mem v).mp hv
        have hvN : v ∈ g.nodes := suc_mem_nodes hg hvsuc
        have hupred : u ∈ g.get_predecessors v :=
          (hg.mem_pred u v).mp ((hg.mem_suc u v).mpr hvsuc)
        have hvts : v ∉ ts := by
          intro hvts
          have hpred := prefixClosed_mem g ts inv.closed v hvts
          have : ((g.get_predecessors v).filter
              (fun p => decide (p ∉ ts))).length = 0 := by
            rw [List.length_eq_zero, List.filter_eq_nil_iff]
            intro p hp
            simpa using hpred p hp
          omega
        have hvu : v ≠ u := by
          intro he
          have := hdeg_zero u hu_zs
          rw [he] at hcnt
          omega
        refine ⟨hvN, ?_, ?_⟩
        · intro hmem
          rcases List.mem_append.mp hmem with h | h
          · exact hvts h
          · simp only [List.mem_singleton] at h
            exact hvu h
        · -- the only pending predecessor of v was u
          have hmemF : u ∈ (g.get_predecessors v).filter
              (fun p => decide (p ∉ ts)) := by
            rw [List.mem_filter]
            exact ⟨hupred, by simpa using hu_ts⟩
          obtain ⟨a, ha⟩ := List.length_eq_one.mp hcnt
          rw [ha] at hmemF
          simp only [List.mem_singleton] at hmemF
          subst hmemF
          intro p hp
          by_cases hpts : p ∈ ts
          · exact List.mem_append_left _ hpts
          · have : p ∈ (g.get_predecessors v).filter
                (fun q => decide (q ∉ ts)) := by
              rw [List.mem_filter]
              exact ⟨hp, by simpa using hpts⟩
            rw [ha] at this
            simp only [List.mem_singleton] at this
            subst this
            exact List.mem_append_right _ (by simp)
    · rintro ⟨hvN, hvts', hvpred⟩
      have hvts : v ∉ ts := fun h => hvts' (List.mem_append_left _ h)
      have hvu : v ≠ u := fun he => hvts' (List.mem_append_right _ (by simp [he]))
      by_cases hupred : u ∈ g.get_predecessors v
      · right
        rw [hpush_mem v]
        refine ⟨(hg.mem_suc u v).mp ((hg.mem_pred u v).mpr hupred), ?_⟩
        have hF : (g.get_predecessors v).filter (fun p => decide (p ∉ ts)) = [u] := by
          apply eq_singleton_of_nodup _ u
            (List.Nodup.filter _ (hg.nodup_pred v))
          · rw [List.mem_filter]
            exact ⟨hupred, by simpa using hu_ts⟩
          · intro x hx
            rw [List.mem_filter] at hx
            obtain ⟨hx1, hx2⟩ := hx
            have : x ∈ ts ++ [u] := hvpred x hx1
            rcases List.mem_append.mp this with h | h
            · exact absurd h (by simpa using hx2)
            · simpa using h
        rw [hF]
        rfl
      · left
        have hvzs : v ∈ zs := by
          rw [inv.zs_iff v]
          refine ⟨hvN, hvts, ?_⟩
          intro p hp
          rcases List.mem_append.mp (hvpred p hp) with h | h
          · exact h
          · simp only [List.mem_singleton] at h
            subst h
            exact absurd hp hupred
        rw [hzs] at hvzs
        rcases List.mem_append.mp hvzs with h | h
        · exact h
        · simp only [List.mem_singleton] at h
          exact absurd h hvu
  · rw [List.nodup_append]
    refine ⟨hl_nodup, List.Nodup.filter _ (hg.nodup_suc u), ?_⟩
    intro x hxl hxp
    have h0 := hdeg_zero x (hl_zs x hxl)
    have h1 := ((hpush_mem x).mp hxp).2
    omega
  · exact prefixClosed_concat g ts u inv.closed hu_pred
  · have := inv.fuel_ok
    simp only [List.length_append, List.length_singleton]
    omega

end Kahn

namespace Kahn

variable {α : Type} [DecidableEq α]

theorem kahnLoop_zero (g : DirectedGraph α) (degs : List (α × Int))
    (zs ts : List α) : kahnLoop g 0 degs zs ts = .ok ts := rfl

theorem kahnLoop_succ_nil (g : DirectedGraph α) (fuel : Nat)
    (degs : List (α × Int)) (ts : List α) :
    kahnLoop g (fuel + 1) degs [] ts = .ok ts := rfl

theorem kahnLoop_succ_concat (g : DirectedGraph α) (fuel : Nat)
    (degs degs' : List (α × Int)) (l zs' ts : List α) (u : α)
    (hps : processSucc (g.get_successors u) degs l = .ok (degs', zs')) :
    kahnLoop g (fuel + 1) degs (l ++ [u]) ts =
      kahnLoop g fuel degs' zs' (ts ++ [u]) := by
  simp only [kahnLoop, List.getLast?_concat, List.dropLast_concat, hps]

/-- Main loop theorem: under the invariant the loop never raises, and it
returns a duplicate-free sub-list of the nodes that is prefix-closed and
such that every node left out still had an unprocessed predecessor. -/
theorem kahnLoop_spec (g : DirectedGraph α) (hg : WF g) :
    ∀ (fuel : Nat) (degs : List (α × Int)) (zs ts : List α),
      KInv g fuel degs zs ts →
      ∃ ts', kahnLoop g fuel degs zs ts = .ok ts' ∧
        ts'.Nodup ∧ (∀ x ∈ ts', x ∈ g.nodes) ∧ PrefixClosed g ts' ∧
        (∀ v ∈ g.nodes, v ∉ ts' → ∃ p ∈ g.get_predecessors v, p ∉ ts') := by
  intro fuel
  induction fuel with
  | zero =>
    intro degs zs ts inv
    have hfull : g.nodes.length ≤ ts.length := by
      have := inv.fuel_ok
      omega
    refine ⟨ts, kahnLoop_zero g degs zs ts, inv.ts_nodup, inv.ts_sub,
      inv.closed, ?_⟩
    intro v hvN hvts
    exfalso
    have hzs := kinv_zs_nil hg inv hfull
    have h1 : ts.toFinset ⊆ g.nodes.toFinset := fun x hx =>
      List.mem_toFinset.mpr (inv.ts_sub x (List.mem_toFinset.mp hx))
    have h2 : g.nodes.toFinset.card ≤ ts.toFinset.card := by
      rw [List.toFinset_card_of_nodup inv.ts_nodup,
        List.toFinset_card_of_nodup hg.nodup_nodes]
      exact hfull
    have heq := Finset.eq_of_subset_of_card_le h1 h2
    apply hvts
    rw [← List.mem_toFinset, ← heq, List.mem_toFinset] at hvN
    exact hvN
  | succ fuel ih =>
    intro degs zs ts inv
    rcases List.eq_nil_or_concat zs with rfl | ⟨l, u, rfl⟩
    · refine ⟨ts, kahnLoop_succ_nil g fuel degs ts, inv.ts_nodup, inv.ts_sub,
        inv.closed, ?_⟩
      intro v hvN hvts
      have hnot : v ∉ ([] : List α) := by simp
      rw [inv.zs_iff v] at hnot
      push_neg at hnot
      exact hnot hvN hvts
    · rw [List.concat_eq_append]
      obtain ⟨degs', zs', hps, inv'⟩ := kinv_step hg inv (List.concat_eq_append l u)
      rw [kahnLoop_succ_concat g fuel degs degs' l zs' ts u hps]
      exact ih degs' zs' (ts ++ [u]) inv'

/-- One extra unit of fuel never changes the loop's result once the invariant
holds: the worklist empties before the fuel does. -/
theorem kahnLoop_stable (g : DirectedGraph α) (hg : WF g) :
    ∀ (fuel : Nat) (degs : List (α × Int)) (zs ts : List α),
      KInv g fuel degs zs ts →
      kahnLoop g (fuel + 1) degs zs ts = kahnLoop g fuel degs zs ts := by
  intro fuel
  induction fuel with
  | zero =>
    intro degs zs ts inv
    have hzs := kinv_zs_nil hg inv (by have := inv.fuel_ok; omega)
    subst hzs
    rw [kahnLoop_succ_nil, kahnLoop_zero]
  | succ fuel ih =>
    intro degs zs ts inv
    rcases List.eq_nil_or_concat zs with rfl | ⟨l, u, rfl⟩
    · rw [kahnLoop_succ_nil, kahnLoop_succ_nil]
    · rw [List.concat_eq_append]
      obtain ⟨degs', zs', hps, inv'⟩ := kinv_step hg inv (List.concat_eq_append l u)
      rw [kahnLoop_succ_concat g (fuel + 1) degs degs' l zs' ts u hps,
        kahnLoop_succ_concat g fuel degs degs' l zs' ts u hps]
      exact ih degs' zs' (ts ++ [u]) inv'

theorem kahnLoop_add (g : DirectedGraph α) (hg : WF g) (fuel : Nat)
    (degs : List (α × Int)) (zs ts : List α) (inv : KInv g fuel degs zs ts) :
    ∀ k : Nat, kahnLoop g (fuel + k) degs zs ts = kahnLoop g fuel degs zs ts := by
  intro k
  induction k with
  | zero => rfl
  | succ k ihk =>
    have : fuel + (k + 1) = (fuel + k) + 1 := by omega
    rw [this, kahnLoop_stable g hg (fuel + k) degs zs ts
      (kinv_weaken inv (by omega)), ihk]

/-- On a well-formed acyclic graph `kahns_algo` succeeds, and its output is a
duplicate-free enumeration of exactly the node set that is prefix-closed. -/
theorem kahns_algo_ok_of_acyclic {g : DirectedGraph α} (hg : WF g)
    (hnc : ¬ HasCycle g) :
    ∃ ts, kahns_algo g = .ok ts ∧ ts.Nodup ∧
      (∀ x, x ∈ ts ↔ x ∈ g.nodes) ∧ PrefixClosed g ts := by
  obtain ⟨ts, hloop, hnd, hsub, hclosed, hblocked⟩ :=
    kahnLoop_spec g hg _ _ _ _ (kinv_init g hg)
  have hall : ∀ v ∈ g.nodes, v ∈ ts := by
    by_contra hex
    push_neg at hex
    obtain ⟨v, hvN, hvts⟩ := hex
    apply hnc
    apply hasCycle_of_all_pred g (g.nodes.filter (fun w => decide (w ∉ ts)))
      (List.Nodup.filter _ hg.nodup_nodes)
    · intro w hw
      rw [List.mem_filter] at hw
      obtain ⟨hwN, hwts⟩ := hw
      obtain ⟨p, hp, hpts⟩ := hblocked w hwN (by simpa using hwts)
      refine ⟨p, ?_, (hg.mem_pred p w).mpr hp⟩
      rw [List.mem_filter]
      exact ⟨pred_mem_nodes hg hp, by simpa using hpts⟩
    · intro hnil
      rw [List.eq_nil_iff_forall_not_mem] at hnil
      exact hnil v (by rw [List.mem_filter]; exact ⟨hvN, by simpa using hvts⟩)
  have hlen : g.get_nodes.length ≤ ts.length :=
    length_le_of_nodup_subset g.nodes ts hg.nodup_nodes hall hnd
  refine ⟨ts, ?_, hnd, fun x => ⟨fun hx => hsub x hx, hall x⟩, hclosed⟩
  have hstep : kahns_algo g =
      if ts.length < g.get_nodes.length then .error "Graph contains a cycle"
      else .ok ts := by
    unfold kahns_algo
    rw [hloop]
  rw [hstep, if_neg (by omega)]

/-- On a well-formed graph with a cycle `kahns_algo` raises the cycle error. -/
theorem kahns_algo_error_of_cycle {g : DirectedGraph α} (hg : WF g)
    (hc : HasCycle g) : kahns_algo g = .error "Graph contains a cycle" := by
  obtain ⟨c, hcyc⟩ := hc
  obtain ⟨ts, hloop, hnd, hsub, hclosed, -⟩ :=
    kahnLoop_spec g hg _ _ _ _ (kinv_init g hg)
  have hdisj : ∀ x ∈ c, x ∉ ts :=
    cycle_disjoint_prefixClosed hg ts c hclosed (cycle_nodes_have_pred hcyc)
  obtain ⟨x, hxc⟩ : ∃ x, x ∈ c := by
    cases c with
    | nil => exact absurd hcyc (by simp [IsCycle])
    | cons y rest => exact ⟨y, List.mem_cons_self _ _⟩
  obtain ⟨p, -, hpe⟩ := cycle_nodes_have_pred hcyc x hxc
  have hxN : x ∈ g.nodes := (hg.mem_nodes x).mpr ⟨(p, x), hpe, Or.inr rfl⟩
  have hxts : x ∉ ts := hdisj x hxc
  have hlt : ts.length < g.get_nodes.length := by
    have hsubF : ts.toFinset ⊆ g.nodes.toFinset := fun w hw =>
      List.mem_toFinset.mpr (hsub w (List.mem_toFinset.mp hw))
    have hssub : ts.toFinset ⊂ g.nodes.toFinset := by
      rw [Finset.ssubset_iff_of_subset hsubF]
      exact ⟨x, List.mem_toFinset.mpr hxN, fun hx => hxts (List.mem_toFinset.mp hx)⟩
    have := Finset.card_lt_card hssub
    rw [List.toFinset_card_of_nodup hnd,
      List.toFinset_card_of_nodup hg.nodup_nodes] at this
    exact this
  have hstep : kahns_algo g =
      if ts.length < g.get_nodes.length then .error "Graph contains a cycle"
      else .ok ts := by
    unfold kahns_algo
    rw [hloop]
  rw [hstep, if_pos hlt]

/-- `kahns_algo` never reaches the modelled `KeyError` on a well-formed
graph: its only outcomes are a sorted list or the cycle error. -/
theorem kahns_algo_cases {g : DirectedGraph α} (hg : WF g) :
    (∃ ts, kahns_algo g = .ok ts) ∨
      kahns_algo g = .error "Graph contains a cycle" := by
  by_cases hc : HasCycle g
  · exact Or.inr (kahns_algo_error_of_cycle hg hc)
  · obtain ⟨ts, hok, -⟩ := kahns_algo_ok_of_acyclic hg hc
    exact Or.inl ⟨ts, hok⟩

end Kahn

/-! ## Outputs of the sorter pass the validator -/

section SorterValidator

variable {α : Type} [DecidableEq α]

theorem edge_fst_mem_nodes {g : DirectedGraph α} (hg : WF g) {u v : α}
    (h : (u, v) ∈ g.edges) : u ∈ g.nodes :=
  (hg.mem_nodes u).mpr ⟨(u, v), h, Or.inl rfl⟩

theorem edge_snd_mem_nodes {g : DirectedGraph α} (hg : WF g) {u v : α}
    (h : (u, v) ∈ g.edges) : v ∈ g.nodes :=
  (hg.mem_nodes v).mpr ⟨(u, v), h, Or.inr rfl⟩

/-- Any duplicate-free prefix-closed enumeration of the node set passes the
validator. -/
theorem is_top_of_perm_closed {g : DirectedGraph α} (hg : WF g) (ts : List α)
    (hnd : ts.Nodup) (hiff : ∀ x, x ∈ ts ↔ x ∈ g.nodes)
    (hclosed : PrefixClosed g ts) : is_topological_sort g ts = .ok true := by
  have hset : ts.toFinset = g.get_nodes.toFinset := by
    apply Finset.ext
    intro x
    rw [List.mem_toFinset, List.mem_toFinset]
    exact hiff x
  unfold is_topological_sort
  rw [if_neg (fun h => h hset)]
  rw [allEdgesOrdered_ok_true_iff]
  intro u v huv
  have hvts : v ∈ ts := (hiff v).mpr (edge_snd_mem_nodes hg huv)
  obtain ⟨t1, t2, hsplit⟩ := List.append_of_mem hvts
  have hu_t1 : u ∈ t1 := hclosed t1 v t2 hsplit u ((hg.mem_pred u v).mp huv)
  exact lastIdx_lt_of_split ts t1 v t2 hnd hsplit u hu_t1

/-- On a well-formed graph the validator never raises: it always returns a
boolean. -/
theorem is_top_total {g : DirectedGraph α} (hg : WF g) (seq : List α) :
    ∃ b, is_topological_sort g seq = .ok b := by
  unfold is_topological_sort
  by_cases hset : seq.toFinset = g.get_nodes.toFinset
  · rw [if_neg (fun h => h hset)]
    apply allEdgesOrdered_ok_of_some
    intro u v huv
    have hu : u ∈ seq := by
      rw [← List.mem_toFinset, hset, List.mem_toFinset]
      exact edge_fst_mem_nodes hg huv
    have hv : v ∈ seq := by
      rw [← List.mem_toFinset, hset, List.mem_toFinset]
      exact edge_snd_mem_nodes hg huv
    obtain ⟨i, hi⟩ := lastIdx_isSome_of_mem u seq hu
    obtain ⟨j, hj⟩ := lastIdx_isSome_of_mem v seq hv
    exact ⟨by simp [hi], by simp [hj]⟩
  · exact ⟨false, by rw [if_pos hset]⟩

/-- Exact characterization of when the validator returns `True`. -/
theorem is_top_true_iff (g : DirectedGraph α) (seq : List α) :
    is_topological_sort g seq = .ok true ↔
      (seq.toFinset = g.nodes.toFinset ∧
        ∀ u v : α, (u, v) ∈ g.edges → ∃ i j, lastIdx u seq = some i ∧
          lastIdx v seq = some j ∧ i < j) := by
  unfold is_topological_sort
  by_cases hset : seq.toFinset = g.get_nodes.toFinset
  · rw [if_neg (fun h => h hset)]
    rw [allEdgesOrdered_ok_true_iff]
    unfold DirectedGraph.get_nodes at hset
    unfold DirectedGraph.get_edges
    constructor
    · intro h
      exact ⟨hset, h⟩
    · intro h
      exact h.2
  · rw [if_pos hset]
    constructor
    · intro h
      injection h with h
      exact Bool.noConfusion h
    · intro h
      exact absurd h.1 hset

end SorterValidator

/-! ## The random DAG generator -/

section RandomDag

/-- Invariant carried through the generator's double loop. -/
def RDInv (n : Nat) (bnd : Nat) (g : DirectedGraph Nat) : Prop :=
  WF g ∧ ∀ e ∈ g.edges, e.1 < e.2 ∧ e.2 < n ∧ e.1 < bnd

theorem random_dag_inner (n u : Nat) (coin : Nat → Nat → Bool) :
    ∀ (vs : List Nat) (g : DirectedGraph Nat), vs.Nodup → WF g →
      (∀ e ∈ g.edges, e.1 < e.2 ∧ e.2 < n ∧ e.1 ≤ u) →
      (∀ v ∈ vs, u < v ∧ v < n ∧ (u, v) ∉ g.edges) →
      ∃ g', vs.foldlM
          (fun g' v => if coin u v then g'.add_edge u v else .ok g') g = .ok g' ∧
        WF g' ∧ (∀ e ∈ g'.edges, e.1 < e.2 ∧ e.2 < n ∧ e.1 ≤ u) := by
  intro vs
  induction vs with
  | nil =>
    intro g _ hg hbnd _
    exact ⟨g, rfl, hg, hbnd⟩
  | cons v rest ih =>
    intro g hnd hg hbnd hvs
    obtain ⟨huv, hvn, hnotin⟩ := hvs v (List.mem_cons_self _ _)
    have hvrest : v ∉ rest := (List.nodup_cons.mp hnd).1
    have hndrest : rest.Nodup := (List.nodup_cons.mp hnd).2
    by_cases hc : coin u v
    · obtain ⟨g1, hok, hedges, hsuc, hpred, hnodes⟩ := add_edge_ok hg hnotin
      have hg1 : WF g1 := wf_add_edge_ok hg hnotin hok
      have hbnd1 : ∀ e ∈ g1.edges, e.1 < e.2 ∧ e.2 < n ∧ e.1 ≤ u := by
        intro e he
        rw [hedges] at he
        rcases List.mem_append.mp he with he | he
        · exact hbnd e he
        · simp only [List.mem_singleton] at he
          subst he
          exact ⟨huv, hvn, le_refl u⟩
      have hvs1 : ∀ w ∈ rest, u < w ∧ w < n ∧ (u, w) ∉ g1.edges := by
        intro w hw
        obtain ⟨huw, hwn, hnotw⟩ := hvs w (List.mem_cons_of_mem _ hw)
        refine ⟨huw, hwn, ?_⟩
        rw [hedges]
        intro hmem
        rcases List.mem_append.mp hmem with h | h
        · exact hnotw h
        · simp only [List.mem_singleton, Prod.mk.injEq] at h
          exact hvrest (h.2 ▸ hw)
      obtain ⟨g', hfold, hg', hbnd'⟩ := ih g1 hndrest hg1 hbnd1 hvs1
      refine ⟨g', ?_, hg', hbnd'⟩
      rw [List.foldlM_cons, if_pos hc, hok]
      exact hfold
    · obtain ⟨g', hfold, hg', hbnd'⟩ :=
        ih g hndrest hg hbnd (fun w hw => hvs w (List.mem_cons_of_mem _ hw))
      refine ⟨g', ?_, hg', hbnd'⟩
      rw [List.foldlM_cons, if_neg hc]
      exact hfold

end RandomDag

section RandomDag2

theorem random_dag_outer (n : Nat) (coin : Nat → Nat → Bool) :
    ∀ (us : List Nat) (g : DirectedGraph Nat), List.Pairwise (· < ·) us → WF g →
      (∀ e ∈ g.edges, e.1 < e.2 ∧ e.2 < n) →
      (∀ u ∈ us, ∀ e ∈ g.edges, e.1 < u) →
      ∃ g', us.foldlM
          (fun g u =>
            (List.range' (u + 1) (n - (u + 1))).foldlM
              (fun g' v => if coin u v then g'.add_edge u v else .ok g') g) g
          = .ok g' ∧
        WF g' ∧ (∀ e ∈ g'.edges, e.1 < e.2 ∧ e.2 < n) := by
  intro us
  induction us with
  | nil =>
    intro g _ hg hbnd _
    exact ⟨g, rfl, hg, hbnd⟩
  | cons u rest ih =>
    intro g hpw hg hbnd hus
    have hu_rest : ∀ u' ∈ rest, u < u' := fun u' h =>
      (List.pairwise_cons.mp hpw).1 u' h
    have hpw_rest : List.Pairwise (· < ·) rest := (List.pairwise_cons.mp hpw).2
    obtain ⟨g1, hfold1, hg1, hbnd1⟩ :=
      random_dag_inner n u coin (List.range' (u + 1) (n - (u + 1))) g
        (List.nodup_range' _ _ 1 Nat.one_pos)
        hg
        (fun e he => ⟨(hbnd e he).1, (hbnd e he).2,
          Nat.le_of_lt (hus u (List.mem_cons_self _ _) e he)⟩)
        (by
          intro v hv
          rw [List.mem_range'_1] at hv
          refine ⟨by omega, by omega, ?_⟩
          intro hmem
          have := hus u (List.mem_cons_self _ _) (u, v) hmem
          omega)
    obtain ⟨g', hfold, hg', hbnd'⟩ := ih g1 hpw_rest hg1
      (fun e he => ⟨(hbnd1 e he).1, (hbnd1 e he).2.1⟩)
      (by
        intro u' hu' e he
        have h1 := (hbnd1 e he).2.2
        have h2 := hu_rest u' hu'
        omega)
    refine ⟨g', ?_, hg', hbnd'⟩
    rw [List.foldlM_cons, hfold1]
    exact hfold

/-- The generator always succeeds and produces a well-formed graph all of
whose edges go from a smaller to a larger label below `n`. -/
theorem random_dag_spec (n : Nat) (coin : Nat → Nat → Bool) :
    ∃ g, random_dag n coin = .ok g ∧ WF g ∧
      (∀ e ∈ g.edges, e.1 < e.2 ∧ e.2 < n) := by
  obtain ⟨g', hfold, hg', hbnd'⟩ :=
    random_dag_outer n coin (List.range n) DirectedGraph.empty
      (List.pairwise_lt_range n) wf_empty
      (by intro e he; simp [DirectedGraph.empty] at he)
      (by intro u _ e he; simp [DirectedGraph.empty] at he)
  exact ⟨g', hfold, hg', hbnd'⟩

theorem lastIdx_lt_of_pairwise {α : Type} [DecidableEq α] [LinearOrder α]
    (seq : List α) (hp : seq.Pairwise (· < ·)) (u v : α) (hu : u ∈ seq)
    (hv : v ∈ seq) (huv : u < v) :
    ∃ i j, lastIdx u seq = some i ∧ lastIdx v seq = some j ∧ i < j := by
  have hnd : seq.Nodup := hp.imp ne_of_lt
  obtain ⟨t1, t2, hsplit⟩ := List.append_of_mem hv
  have hu_t1 : u ∈ t1 := by
    rw [hsplit] at hu hp
    rcases List.mem_append.mp hu with h | h
    · exact h
    · rcases List.mem_cons.mp h with rfl | h
      · exact absurd huv (lt_irrefl u)
      · have := (List.pairwise_cons.mp (List.pairwise_append.mp hp).2.1).1 u h
        exact absurd (lt_trans huv this) (lt_irrefl u)
  exact lastIdx_lt_of_split seq t1 v t2 hnd hsplit u hu_t1

/-- The natural-index order, restricted to the nodes actually recorded in the
graph, passes the validator on any graph produced by `random_dag`. -/
theorem random_dag_natural_order (n : Nat) (g : DirectedGraph Nat) (hg : WF g)
    (hbnd : ∀ e ∈ g.edges, e.1 < e.2 ∧ e.2 < n) :
    is_topological_sort g
      ((List.range n).filter (fun x => decide (x ∈ g.nodes))) = .ok true := by
  set seq := (List.range n).filter (fun x => decide (x ∈ g.nodes)) with hseq
  have hmem : ∀ x, x ∈ seq ↔ x ∈ g.nodes := by
    intro x
    rw [hseq, List.mem_filter, List.mem_range]
    constructor
    · rintro ⟨-, h⟩
      simpa using h
    · intro h
      refine ⟨?_, by simpa using h⟩
      obtain ⟨e, he, hx⟩ := (hg.mem_nodes x).mp h
      obtain ⟨h1, h2⟩ := hbnd e he
      rcases hx with rfl | rfl <;> omega
  have hpw : seq.Pairwise (· < ·) := List.Pairwise.filter _ (List.pairwise_lt_range n)
  rw [is_top_true_iff]
  constructor
  · apply Finset.ext
    intro x
    rw [List.mem_toFinset, List.mem_toFinset]
    exact hmem x
  · intro u v huv
    exact lastIdx_lt_of_pairwise seq hpw u v
      ((hmem u).mpr (edge_fst_mem_nodes hg huv))
      ((hmem v).mpr (edge_snd_mem_nodes hg huv))
      (hbnd (u, v) huv).1

end RandomDag2

/-! ## Concrete example graphs (built through `add_edge` from the empty graph) -/

/-- The graph after `add_edge(0, 1)` on a fresh graph. -/
def gA : DirectedGraph Nat := resState (DirectedGraph.empty.add_edge 0 1)

/-- The path graph `0 → 1 → 2`. -/
def gPath : DirectedGraph Nat := resState (gA.add_edge 1 2)

/-- The 2-cycle `0 → 1 → 0`. -/
def gCyc : DirectedGraph Nat := resState (gA.add_edge 1 0)

/-- A single self-loop `5 → 5`. -/
def gLoop : DirectedGraph Nat := resState (DirectedGraph.empty.add_edge 5 5)

theorem wf_gA : WF gA := wf_add_edge DirectedGraph.empty wf_empty 0 1

theorem wf_gPath : WF gPath := wf_add_edge gA wf_gA 1 2

theorem wf_gCyc : WF gCyc := wf_add_edge gA wf_gA 1 0

theorem wf_gLoop : WF gLoop := wf_add_edge DirectedGraph.empty wf_empty 5 5

/-! ## The claims -/

/-- C1: sorting raises the cycle error if and only if the graph contains a
cycle; on a cycle-free graph it always succeeds with a sequence, never
raising.  (The output-length test is thereby a necessary and sufficient
cycle indicator.) -/
theorem C1_cycle_error_iff {α : Type} [DecidableEq α] (g : DirectedGraph α)
    (hg : WF g) :
    (topological_sort g = .error "Graph contains a cycle" ↔ HasCycle g) ∧
    (¬ HasCycle g → ∃ ts, topological_sort g = .ok ts) := by
  unfold topological_sort
  constructor
  · constructor
    · intro herr
      by_contra hnc
      obtain ⟨ts, hok, -⟩ := Kahn.kahns_algo_ok_of_acyclic hg hnc
      rw [hok] at herr
      exact Except.noConfusion herr
    · exact Kahn.kahns_algo_error_of_cycle hg
  · intro hnc
    obtain ⟨ts, hok, -⟩ := Kahn.kahns_algo_ok_of_acyclic hg hnc
    exact ⟨ts, hok⟩

theorem C1_cycle_error_iff_witness :
    topological_sort gCyc = .error "Graph contains a cycle" :=
  (C1_cycle_error_iff gCyc wf_gCyc).1.mpr
    ⟨[0, 1], List.Chain.cons (by decide) (List.Chain.cons (by decide) List.Chain.nil)⟩

/-- C2: on a well-formed acyclic graph, any sequence the sorter returns
contains every node exactly once with every edge source before its target;
equivalently the validator accepts it. -/
theorem C2_sorter_output_valid {α : Type} [DecidableEq α] (g : DirectedGraph α)
    (hg : WF g) (hnc : ¬ HasCycle g) (ts : List α)
    (hok : topological_sort g = .ok ts) :
    is_topological_sort g ts = .ok true ∧
      (∀ x, x ∈ ts ↔ x ∈ g.nodes) ∧ ts.Nodup := by
  obtain ⟨ts', hok', hnd, hiff, hclosed⟩ := Kahn.kahns_algo_ok_of_acyclic hg hnc
  unfold topological_sort at hok
  rw [hok'] at hok
  injection hok with hok
  subst hok
  exact ⟨is_top_of_perm_closed hg ts' hnd hiff hclosed, hiff, hnd⟩

theorem C2_sorter_output_valid_witness :
    is_topological_sort gPath [0, 1, 2] = .ok true :=
  (C2_sorter_output_valid gPath wf_gPath
    (acyclic_of_increasing gPath (fun x => x) (by
      intro a b h
      have h' : (a, b) ∈ [((0 : Nat), (1 : Nat)), (1, 2)] := h
      simp only [List.mem_cons, List.mem_singleton, Prod.mk.injEq] at h'
      rcases h' with ⟨rfl, rfl⟩ | ⟨rfl, rfl⟩ | h'
      · decide
      · decide
      · simp at h'))
    [0, 1, 2] rfl).1

/-- C3: on a well-formed graph the validator never raises, and it returns
`True` exactly when the candidate's node set equals the graph's node set and
every edge's source position (index of its occurrence, last occurrence when
duplicated) is strictly below its target position. -/
theorem C3_validator_iff {α : Type} [DecidableEq α] (g : DirectedGraph α)
    (hg : WF g) (seq : List α) :
    (∃ b, is_topological_sort g seq = .ok b) ∧
    (is_topological_sort g seq = .ok true ↔
      (seq.toFinset = g.nodes.toFinset ∧
        ∀ u v : α, (u, v) ∈ g.edges → ∃ i j, lastIdx u seq = some i ∧
          lastIdx v seq = some j ∧ i < j)) :=
  ⟨is_top_total hg seq, is_top_true_iff g seq⟩

theorem C3_validator_iff_witness :
    ([0, 1, 2] : List Nat).toFinset = gPath.nodes.toFinset :=
  (((C3_validator_iff gPath wf_gPath [0, 1, 2]).2).mp rfl).1

/-- C4: on any well-formed graph state, re-adding an already present edge
`(u, v)` raises the duplicate-edge error and leaves the entire graph state
unchanged; in particular a second `add_edge` call right after a successful
one fails and leaves the state of the first call. -/
theorem C4_duplicate_edge {α : Type} [DecidableEq α] (g : DirectedGraph α)
    (hg : WF g) (u v : α) :
    ((u, v) ∈ g.edges → g.add_edge u v = .error g) ∧
    (∀ g', g.add_edge u v = .ok g' → g'.add_edge u v = .error g') := by
  constructor
  · exact fun hmem => add_edge_error_of_mem hg hmem
  · intro g' hok
    have hnot : (u, v) ∉ g.edges := by
      intro hmem
      rw [add_edge_error_of_mem hg hmem] at hok
      exact Except.noConfusion hok
    have hg' : WF g' := wf_add_edge_ok hg hnot hok
    obtain ⟨g'', hok'', hedges, -⟩ := add_edge_ok hg hnot
    rw [hok''] at hok
    injection hok with hok
    subst hok
    apply add_edge_error_of_mem hg'
    rw [hedges]
    simp

theorem C4_duplicate_edge_witness : gA.add_edge 0 1 = .error gA :=
  (C4_duplicate_edge gA wf_gA 0 1).1 (by decide)

/-- C5: every `add_edge` call, failing or successful, preserves the
representation invariants: each recorded edge `(a, b)` has `b` exactly once
in `successors[a]` and `a` exactly once in `predecessors[b]`, and the node
set is exactly the set of edge endpoints. -/
theorem C5_add_edge_invariants {α : Type} [DecidableEq α]
    (g : DirectedGraph α) (hg : WF g) (u v : α) :
    (∀ a b : α, (a, b) ∈ (resState (g.add_edge u v)).edges →
      ((resState (g.add_edge u v)).get_successors a).count b = 1 ∧
      ((resState (g.add_edge u v)).get_predecessors b).count a = 1) ∧
    (∀ w, w ∈ (resState (g.add_edge u v)).nodes ↔
      ∃ e ∈ (resState (g.add_edge u v)).edges, e.1 = w ∨ e.2 = w) := by
  have hg' := wf_add_edge g hg u v
  constructor
  · intro a b hab
    constructor
    · exact List.count_eq_one_of_mem (hg'.nodup_suc a) ((hg'.mem_suc a b).mp hab)
    · exact List.count_eq_one_of_mem (hg'.nodup_pred b) ((hg'.mem_pred a b).mp hab)
  · exact hg'.mem_nodes

theorem C5_add_edge_invariants_witness :
    ((resState (gA.add_edge 1 2)).get_successors 0).count 1 = 1 :=
  ((C5_add_edge_invariants gA wf_gA 1 2).1 0 1 (by decide)).1

/-- C7: a self-loop `(u, u)` can be inserted whenever it is not already
present, and any well-formed graph containing a self-loop makes the sorter
raise the cycle error. -/
theorem C7_self_loop {α : Type} [DecidableEq α] (g : DirectedGraph α)
    (hg : WF g) (u : α) :
    ((u, u) ∉ g.edges → ∃ g', g.add_edge u u = .ok g') ∧
    ((u, u) ∈ g.edges →
      topological_sort g = .error "Graph contains a cycle") := by
  constructor
  · intro h
    obtain ⟨g', hok, -⟩ := add_edge_ok hg h
    exact ⟨g', hok⟩
  · intro h
    show Kahn.kahns_algo g = _
    apply Kahn.kahns_algo_error_of_cycle hg
    exact ⟨[u], List.Chain.cons h List.Chain.nil⟩

theorem C7_self_loop_witness :
    topological_sort gLoop = .error "Graph contains a cycle" :=
  (C7_self_loop gLoop wf_gLoop 5).2 (by decide)

/-- C8: querying the successors of a node with no recorded outgoing edges
(including a node entirely unknown to the graph) yields the empty sequence,
and symmetrically for predecessors. -/
theorem C8_missing_node_queries {α : Type} [DecidableEq α]
    (g : DirectedGraph α) (hg : WF g) (u : α) :
    ((∀ v, (u, v) ∉ g.edges) → g.get_successors u = []) ∧
    ((∀ v, (v, u) ∉ g.edges) → g.get_predecessors u = []) := by
  constructor
  · intro h
    rw [List.eq_nil_iff_forall_not_mem]
    intro v hv
    exact h v ((hg.mem_suc u v).mpr hv)
  · intro h
    rw [List.eq_nil_iff_forall_not_mem]
    intro v hv
    exact h v ((hg.mem_pred v u).mpr hv)

theorem C8_missing_node_queries_witness : gPath.get_successors 3 = [] :=
  (C8_missing_node_queries gPath wf_gPath 3).1 (by
    intro v hv
    have h' : ((3 : Nat), v) ∈ [((0 : Nat), (1 : Nat)), (1, 2)] := hv
    simp only [List.mem_cons, List.mem_singleton, Prod.mk.injEq] at h'
    rcases h' with ⟨h3, -⟩ | ⟨h3, -⟩ | h'
    · omega
    · omega
    · simp at h')

/-- C9: the loop of `kahns_algo` terminates on every well-formed graph,
cyclic or not: fuel `len(nodes)` already reaches the loop's fixpoint (any
extra fuel returns the same output), the output has no duplicates (each node
is appended at most once), and its length never exceeds the node count, so
the strict `<` test detects exactly the incomplete outputs. -/
theorem C9_termination {α : Type} [DecidableEq α] (g : DirectedGraph α)
    (hg : WF g) :
    ∃ ts, (∀ extra : Nat,
        Kahn.kahnLoop g (g.get_nodes.length + extra) (Kahn.initDegrees g)
          (Kahn.initZero g) [] = .ok ts) ∧
      ts.Nodup ∧ ts.length ≤ g.get_nodes.length := by
  obtain ⟨ts, hloop, hnd, hsub, -, -⟩ :=
    Kahn.kahnLoop_spec g hg _ _ _ _ (Kahn.kinv_init g hg)
  refine ⟨ts, ?_, hnd, ?_⟩
  · intro extra
    rw [Kahn.kahnLoop_add g hg _ _ _ _ (Kahn.kinv_init g hg) extra]
    exact hloop
  · exact length_le_of_nodup_subset ts g.nodes hnd hsub hg.nodup_nodes

theorem C9_termination_witness :
    Kahn.kahnLoop gCyc (gCyc.get_nodes.length + 3) (Kahn.initDegrees gCyc)
        (Kahn.initZero gCyc) [] =
      Kahn.kahnLoop gCyc (gCyc.get_nodes.length + 0) (Kahn.initDegrees gCyc)
        (Kahn.initZero gCyc) [] := by
  obtain ⟨ts, hall, -, -⟩ := C9_termination gCyc wf_gCyc
  rw [hall 3, hall 0]

/-- C6 as stated is false: for `n_nodes = 1` (whatever the draws), the node
`0` gets no edge, so it is missing from the graph's node set and the
validator rejects the natural order `[0]`. -/
theorem C6_counterexample :
    random_dag 1 (fun _ _ => false) = .ok DirectedGraph.empty ∧
    is_topological_sort DirectedGraph.empty (List.range 1) = .ok false :=
  ⟨rfl, rfl⟩

/-- C6 (amended): for every node count and every outcome of the draws the
generator succeeds, every produced edge satisfies `u < v`, the produced
graph is acyclic, and the natural index order restricted to the recorded
node set is a valid topological order of it. -/
theorem C6_random_dag_acyclic (n : Nat) (coin : Nat → Nat → Bool) :
    ∃ g, random_dag n coin = .ok g ∧
      (∀ e ∈ g.edges, e.1 < e.2) ∧ ¬ HasCycle g ∧
      is_topological_sort g
        ((List.range n).filter (fun x => decide (x ∈ g.nodes))) = .ok true := by
  obtain ⟨g, hok, hg, hbnd⟩ := random_dag_spec n coin
  refine ⟨g, hok, fun e he => (hbnd e he).1, ?_,
    random_dag_natural_order n g hg hbnd⟩
  exact acyclic_of_increasing g (fun x => x) (fun a b h => (hbnd (a, b) h).1)

/-- C10: the validator indexes by the last occurrence of each node, so a
sequence with a duplicated node can be accepted although it is not a
permutation of the node set and its first occurrences violate the edge
order: graph with edge `(0, 1)` and candidate `[1, 0, 1]`. -/
theorem C10_duplicate_sequence :
    is_topological_sort gA [1, 0, 1] = .ok true ∧
    ¬ ([1, 0, 1] : List Nat).Nodup ∧
    lastIdx 0 [1, 0, 1] = some 1 ∧ lastIdx 1 [1, 0, 1] = some 2 ∧
    List.indexOf 1 [1, 0, 1] < List.indexOf 0 [1, 0, 1] := by
  refine ⟨rfl, by decide, rfl, rfl, by decide⟩
